import Mathlib

/-!
Verification of the resume scoring/projection core.

The definitions below are shallow embeddings of the Python services in
`app/services` and `app/utils`:

* `calculate_final_score` embeds `ScoringService.calculate_final_score`
  (weighted aggregation of six component scores, `scoring_service.py`).
* `score_bullet_impact` embeds `ImpactService.score_bullet_impact`
  (`impact_service.py`).
* `detect_quantification` embeds `ImpactService.detect_quantification`
  together with the regular-expression patterns it searches for.
* `get_weakest_bullets` embeds `ImpactService.get_weakest_bullets`
  (Python's `sorted` is a stable ascending sort; it is modelled by the
  stable insertion sort `sortBullets`).
* `categorize_keywords` embeds `KeywordService.categorize_keywords` with
  the four static reference sets from `KeywordService.__init__`.
* `project_improved_score` embeds `ProjectionService.project_improved_score`
  with its two private helpers (`projection_service.py`).
* `compute_semantic_similarity` and `cosine_similarity` embed the
  corresponding methods of `EmbeddingService` (`embedding_service.py`).
* `clean_text`, `clean_whitespace`, `normalize_unicode` embed
  `PreprocessService.clean_text` and the helpers in `text_utils.py`.

Numeric scores are modelled by `ℚ`/`ℤ` (exact arithmetic); Python's
`round` (round-half-to-even) is modelled by `pyRound`, and `round(x, 2)`
by `round2`.  Strings are modelled as `List Char`.
-/

/-- Python `round(q)`: round to the nearest integer, ties to even. -/
def pyRound (q : ℚ) : ℤ :=
  if q - ⌊q⌋ < 1/2 then ⌊q⌋
  else if (1:ℚ)/2 < q - ⌊q⌋ then ⌊q⌋ + 1
  else if ⌊q⌋ % 2 = 0 then ⌊q⌋ else ⌊q⌋ + 1

/-- Python `round(q, 2)`: round to two decimal places, ties to even. -/
def round2 (q : ℚ) : ℚ := (pyRound (q * 100) : ℚ) / 100

theorem pyRound_nonneg {q : ℚ} (h : 0 ≤ q) : 0 ≤ pyRound q := by
  have hf : (0:ℤ) ≤ ⌊q⌋ := Int.floor_nonneg.mpr h
  unfold pyRound
  split_ifs <;> omega

theorem pyRound_le {q : ℚ} {n : ℤ} (h : q ≤ n) : pyRound q ≤ n := by
  have hf : ⌊q⌋ ≤ n := by
    have := Int.floor_le_floor h
    simpa using this
  unfold pyRound
  split_ifs with h1 h2 h3
  · exact hf
  · -- here 1/2 < q - ⌊q⌋, so ⌊q⌋ < q ≤ n, hence ⌊q⌋ + 1 ≤ n
    have hlt : (⌊q⌋ : ℚ) < q := by linarith
    have : ⌊q⌋ < n := by
      by_contra hcon
      push_neg at hcon
      have : (n : ℚ) ≤ (⌊q⌋ : ℚ) := by exact_mod_cast hcon
      linarith
    omega
  · exact hf
  · -- tie case: q - ⌊q⌋ = 1/2 exactly, so ⌊q⌋ < q ≤ n
    have hge : (1:ℚ)/2 ≤ q - ⌊q⌋ := by linarith
    have hlt : (⌊q⌋ : ℚ) < q := by linarith
    have : ⌊q⌋ < n := by
      by_contra hcon
      push_neg at hcon
      have : (n : ℚ) ≤ (⌊q⌋ : ℚ) := by exact_mod_cast hcon
      linarith
    omega

/-- The six-component score dictionary passed to
`ScoringService.calculate_final_score`; `none` models a missing key. -/
structure Components where
  keyword_match : Option ℚ
  semantic_match : Option ℚ
  impact_strength : Option ℚ
  skills_alignment : Option ℚ
  experience_alignment : Option ℚ
  format_compliance : Option ℚ
deriving DecidableEq

/-- Missing components are substituted by `0.0`
(`components[component] = 0.0` in the source). -/
def getComponent (o : Option ℚ) : ℚ := o.getD 0

/-- `score = max(0.0, min(100.0, score))` in the source. -/
def clampScore (q : ℚ) : ℚ := max 0 (min 100 q)

/-- The weighted sum computed by the loop in `calculate_final_score`,
with the weights from `ScoringService.__init__`:
keyword_match 0.30, semantic_match 0.25, impact_strength 0.15,
skills_alignment 0.10, experience_alignment 0.10, format_compliance 0.10. -/
def weightedSum (c : Components) : ℚ :=
  clampScore (getComponent c.keyword_match) * (30/100) +
  clampScore (getComponent c.semantic_match) * (25/100) +
  clampScore (getComponent c.impact_strength) * (15/100) +
  clampScore (getComponent c.skills_alignment) * (10/100) +
  clampScore (getComponent c.experience_alignment) * (10/100) +
  clampScore (getComponent c.format_compliance) * (10/100)

/-- `ScoringService.calculate_final_score`: the returned `final_score`
(`round(final_score)` in the source). -/
def calculate_final_score (c : Components) : ℤ := pyRound (weightedSum c)

theorem clampScore_nonneg (q : ℚ) : 0 ≤ clampScore q := le_max_left 0 _

theorem clampScore_le_100 (q : ℚ) : clampScore q ≤ 100 :=
  max_le (by norm_num) (min_le_left _ _)

theorem weightedSum_nonneg (c : Components) : 0 ≤ weightedSum c := by
  have h1 := clampScore_nonneg (getComponent c.keyword_match)
  have h2 := clampScore_nonneg (getComponent c.semantic_match)
  have h3 := clampScore_nonneg (getComponent c.impact_strength)
  have h4 := clampScore_nonneg (getComponent c.skills_alignment)
  have h5 := clampScore_nonneg (getComponent c.experience_alignment)
  have h6 := clampScore_nonneg (getComponent c.format_compliance)
  unfold weightedSum
  nlinarith

theorem weightedSum_le_100 (c : Components) : weightedSum c ≤ 100 := by
  have h1 := clampScore_le_100 (getComponent c.keyword_match)
  have h2 := clampScore_le_100 (getComponent c.semantic_match)
  have h3 := clampScore_le_100 (getComponent c.impact_strength)
  have h4 := clampScore_le_100 (getComponent c.skills_alignment)
  have h5 := clampScore_le_100 (getComponent c.experience_alignment)
  have h6 := clampScore_le_100 (getComponent c.format_compliance)
  unfold weightedSum
  nlinarith

/-- C1: `calculate_final_score` clamps each component into [0,100]
(150 is treated as 100, -20 as 0), substitutes 0 for a missing component,
and returns the round-to-nearest of the weighted sum with weights
0.30/0.25/0.15/0.10/0.10/0.10; hence the final score is always in [0,100],
all-100 inputs give 100, all-0 inputs give 0, and {70,80,65,75,70,90}
gives 74. -/
theorem calculate_final_score_spec :
    (∀ c : Components, 0 ≤ calculate_final_score c ∧ calculate_final_score c ≤ 100)
    ∧ (∀ c : Components, calculate_final_score c = pyRound (weightedSum c))
    ∧ clampScore 150 = 100 ∧ clampScore (-20) = 0
    ∧ (∀ c : Components,
        calculate_final_score { c with keyword_match := none } =
        calculate_final_score { c with keyword_match := some 0 })
    ∧ (∀ c : Components,
        calculate_final_score { c with semantic_match := none } =
        calculate_final_score { c with semantic_match := some 0 })
    ∧ (∀ c : Components,
        calculate_final_score { c with impact_strength := none } =
        calculate_final_score { c with impact_strength := some 0 })
    ∧ (∀ c : Components,
        calculate_final_score { c with skills_alignment := none } =
        calculate_final_score { c with skills_alignment := some 0 })
    ∧ (∀ c : Components,
        calculate_final_score { c with experience_alignment := none } =
        calculate_final_score { c with experience_alignment := some 0 })
    ∧ (∀ c : Components,
        calculate_final_score { c with format_compliance := none } =
        calculate_final_score { c with format_compliance := some 0 })
    ∧ calculate_final_score ⟨some 100, some 100, some 100, some 100, some 100, some 100⟩ = 100
    ∧ calculate_final_score ⟨some 0, some 0, some 0, some 0, some 0, some 0⟩ = 0
    ∧ calculate_final_score ⟨some 150, some 150, some 150, some 150, some 150, some 150⟩ = 100
    ∧ calculate_final_score ⟨some (-20), some (-20), some (-20), some (-20), some (-20), some (-20)⟩ = 0
    ∧ calculate_final_score ⟨some 70, some 80, some 65, some 75, some 70, some 90⟩ = 74 := by
  refine ⟨fun c => ⟨?_, ?_⟩, fun c => rfl,
    by norm_num [clampScore], by norm_num [clampScore],
    fun c => rfl, fun c => rfl, fun c => rfl, fun c => rfl, fun c => rfl, fun c => rfl,
    by norm_num [calculate_final_score, weightedSum, clampScore, getComponent, pyRound],
    by norm_num [calculate_final_score, weightedSum, clampScore, getComponent, pyRound],
    by norm_num [calculate_final_score, weightedSum, clampScore, getComponent, pyRound],
    by norm_num [calculate_final_score, weightedSum, clampScore, getComponent, pyRound],
    by norm_num [calculate_final_score, weightedSum, clampScore, getComponent, pyRound]⟩
  · exact pyRound_nonneg (weightedSum_nonneg c)
  · exact pyRound_le (by exact_mod_cast weightedSum_le_100 c)

/-- `ImpactService.score_bullet_impact`: additive feature scoring with a
weak-verb penalty floored at 0 and a final cap at 100. -/
def score_bullet_impact (has_quantification has_strong_verb is_concise
    is_active_voice has_weak_verb : Bool) : ℤ :=
  let s0 : ℤ := 0
  let s1 := if has_quantification then s0 + 40 else s0
  let s2 := if has_strong_verb then s1 + 30
            else if !has_weak_verb then s1 + 10 else s1
  let s3 := if is_concise then s2 + 20 else s2
  let s4 := if is_active_voice then s3 + 10 else s3
  let s5 := if has_weak_verb then max 0 (s4 - 20) else s4
  min s5 100

/-- C2: for every feature vector, `score_bullet_impact` equals the claimed
formula (start at 0; +40 quantified; +30 strong verb, else +10 when no weak
phrase, else +0; +20 concise; +10 active; subtract 20 floored at 0 when a
weak phrase was found; clamp to [0,100]); the all-positive vector scores
at least 80 and the weak-verb-only vector scores at most 30. -/
theorem score_bullet_impact_spec :
    (∀ hq hsv ic iav hwv : Bool,
      score_bullet_impact hq hsv ic iav hwv =
        min 100
          ((fun base => if hwv then max 0 (base - 20) else base)
            ((if hq then (40:ℤ) else 0) +
             (if hsv then 30 else if hwv then 0 else 10) +
             (if ic then 20 else 0) +
             (if iav then 10 else 0))))
    ∧ (∀ hq hsv ic iav hwv : Bool,
        0 ≤ score_bullet_impact hq hsv ic iav hwv ∧
        score_bullet_impact hq hsv ic iav hwv ≤ 100)
    ∧ 80 ≤ score_bullet_impact true true true true false
    ∧ score_bullet_impact false false false false true ≤ 30 := by
  refine ⟨?_, ?_, ?_, ?_⟩ <;> decide

/-- Python `\w` (ASCII): letters, digits and underscore. -/
def isWordChar (c : Char) : Bool := c.isAlphanum || c = '_'

/-- Python `\s` for text patterns: ASCII whitespace, the extra control
characters `\x1c`-`\x1f` and `\x85`, the no-break space and the Unicode
space separators. -/
def isSpaceChar (c : Char) : Bool :=
  c = ' ' || c = '\t' || c = '\n' || c = '\r' ||
  c = Char.ofNat 0x0b || c = Char.ofNat 0x0c ||
  c = Char.ofNat 0x1c || c = Char.ofNat 0x1d ||
  c = Char.ofNat 0x1e || c = Char.ofNat 0x1f ||
  c = Char.ofNat 0x85 || c = Char.ofNat 0xa0 ||
  c = Char.ofNat 0x1680 ||
  (Char.ofNat 0x2000 ≤ c && c ≤ Char.ofNat 0x200a) ||
  c = Char.ofNat 0x2028 || c = Char.ofNat 0x2029 ||
  c = Char.ofNat 0x202f || c = Char.ofNat 0x205f ||
  c = Char.ofNat 0x3000

/-- Always-succeeding continuation: the rest of the text is irrelevant
once the pattern has matched. -/
def anyRest : List Char → Bool := fun _ => true

/-- Match `\d+` followed by the continuation `k` (all backtracking splits). -/
def matchDigitsThen (k : List Char → Bool) : List Char → Bool
  | [] => false
  | c :: rest => c.isDigit && (k rest || matchDigitsThen k rest)

/-- Match `\s*` followed by the continuation `k` (all backtracking splits). -/
def matchWsStarThen (k : List Char → Bool) : List Char → Bool
  | [] => k []
  | c :: rest => k (c :: rest) || (isSpaceChar c && matchWsStarThen k rest)

/-- Match `\s+` followed by the continuation `k`. -/
def matchWsPlusThen (k : List Char → Bool) : List Char → Bool
  | [] => false
  | c :: rest => isSpaceChar c && matchWsStarThen k rest

/-- Match a literal word (the input is already lower-cased) followed by the
continuation `k`. -/
def matchLitThen : List Char → (List Char → Bool) → List Char → Bool
  | [], k, s => k s
  | _ :: _, _, [] => false
  | p :: ps, k, c :: rest => c = p && matchLitThen ps k rest

/-- Match one of several alternative literal words, each followed by the
continuation `k`. -/
def matchAltThen (ws : List String) (k : List Char → Bool) (s : List Char) : Bool :=
  ws.any (fun w => matchLitThen w.data k s)

/-- Trailing `\b` after a word character: end of text or a non-word
character. -/
def atWordBreak : List Char → Bool
  | [] => true
  | c :: _ => !isWordChar c

/-- `re.search`: try the matcher at every suffix of the text. -/
def searchSuffixes (p : List Char → Bool) : List Char → Bool
  | [] => p []
  | c :: rest => p (c :: rest) || searchSuffixes p rest

/-- `\b` before a word character holds when there is no previous character
or the previous character is not a word character. -/
def boundaryBefore : Option Char → Bool
  | none => true
  | some c => !isWordChar c

/-- `re.search` for a pattern starting with `\b` followed by a word
character: try every suffix whose preceding character is a boundary. -/
def searchWithBoundary (p : List Char → Bool) : Option Char → List Char → Bool
  | prev, [] => boundaryBefore prev && p []
  | prev, c :: rest =>
    (boundaryBefore prev && p (c :: rest)) || searchWithBoundary p (some c) rest

/-- `ImpactService.detect_quantification`: `re.search` (case-insensitive) of
the nine quantification patterns, each embedded as a backtracking matcher
over the lower-cased text:
`\d+%`, `\$\d+`, `\d+\s*(million|thousand|billion|k|m|b)\b`, `\d+\+`,
`\d+x`, `\d+\s*(percent|percentage)`,
`\b\d+\s*(users|customers|clients|projects|people|team members|employees)\b`,
`\d+\s*(hours|days|weeks|months|years)`,
`(increased|reduced|improved|decreased|grew)\s+by\s+\d+`. -/
def detect_quantification (bullet : List Char) : Bool :=
  let s := bullet.map Char.toLower
  searchSuffixes (matchDigitsThen (matchLitThen ['%'] anyRest)) s ||
  searchSuffixes (matchLitThen ['$'] (matchDigitsThen anyRest)) s ||
  searchSuffixes (matchDigitsThen (matchWsStarThen
    (matchAltThen ["million", "thousand", "billion", "k", "m", "b"] atWordBreak))) s ||
  searchSuffixes (matchDigitsThen (matchLitThen ['+'] anyRest)) s ||
  searchSuffixes (matchDigitsThen (matchLitThen ['x'] anyRest)) s ||
  searchSuffixes (matchDigitsThen (matchWsStarThen
    (matchAltThen ["percent", "percentage"] anyRest))) s ||
  searchWithBoundary (matchDigitsThen (matchWsStarThen
    (matchAltThen ["users", "customers", "clients", "projects", "people",
      "team members", "employees"] atWordBreak))) none s ||
  searchSuffixes (matchDigitsThen (matchWsStarThen
    (matchAltThen ["hours", "days", "weeks", "months", "years"] anyRest))) s ||
  searchSuffixes (matchAltThen ["increased", "reduced", "improved", "decreased", "grew"]
    (matchWsPlusThen (matchLitThen ['b', 'y']
      (matchWsPlusThen (matchDigitsThen anyRest))))) s

/-- C3: the quantification detector on the four documented examples.  The
first two match (`\d+%` resp. `\$\d+`) and the last does not, as the spec
and the repository's tests state; but "Led team of 5 engineers" matches
none of the nine patterns ("engineers" is not among the people/time-unit
words), so the code returns `False` where its own test
`test_detect_quantification_numbers` asserts `True`. -/
theorem detect_quantification_examples :
    detect_quantification "Increased sales by 25%".data = true
    ∧ detect_quantification "Generated $2M in revenue".data = true
    ∧ detect_quantification "Led team of 5 engineers".data = false
    ∧ detect_quantification "Helped with various tasks".data = false := by
  refine ⟨?_, ?_, ?_, ?_⟩ <;> decide

/-- An analyzed bullet as consumed by `get_weakest_bullets`: the `text`
and `impact_score` entries of the analysis dictionary. -/
structure AnalyzedBullet where
  text : String
  impact_score : ℤ
deriving DecidableEq

/-- Insert a bullet into an ascending list after every element whose score
is strictly smaller, and before the first element whose score is not;
this is the insertion step of a stable ascending sort. -/
def insBullet (x : AnalyzedBullet) : List AnalyzedBullet → List AnalyzedBullet
  | [] => [x]
  | y :: ys => if y.impact_score < x.impact_score
               then y :: insBullet x ys
               else x :: y :: ys

/-- Python's stable `sorted(analyzed_bullets, key=lambda x: x['impact_score'])`,
modelled as a stable insertion sort. -/
def sortBullets : List AnalyzedBullet → List AnalyzedBullet
  | [] => []
  | x :: xs => insBullet x (sortBullets xs)

/-- `ImpactService.get_weakest_bullets`: sort ascending by impact score
and return the first `count` elements (`sorted_bullets[:count]`). -/
def get_weakest_bullets (analyzed_bullets : List AnalyzedBullet) (count : ℕ) :
    List AnalyzedBullet :=
  (sortBullets analyzed_bullets).take count

theorem insBullet_perm (x : AnalyzedBullet) (l : List AnalyzedBullet) :
    (insBullet x l).Perm (x :: l) := by
  induction l with
  | nil => rfl
  | cons y ys ih =>
    unfold insBullet
    split_ifs
    · exact ((ih.cons y).trans (List.Perm.swap x y ys))
    · rfl

theorem sortBullets_perm (l : List AnalyzedBullet) : (sortBullets l).Perm l := by
  induction l with
  | nil => rfl
  | cons x xs ih => exact (insBullet_perm x (sortBullets xs)).trans (ih.cons x)

theorem insBullet_pairwise {x : AnalyzedBullet} {l : List AnalyzedBullet}
    (h : l.Pairwise (fun a b => a.impact_score ≤ b.impact_score)) :
    (insBullet x l).Pairwise (fun a b => a.impact_score ≤ b.impact_score) := by
  induction l with
  | nil => simp [insBullet]
  | cons y ys ih =>
    rw [List.pairwise_cons] at h
    unfold insBullet
    split_ifs with hlt
    · refine List.pairwise_cons.mpr ⟨?_, ih h.2⟩
      intro z hz
      have hz2 := (insBullet_perm x ys).mem_iff.mp hz
      rcases List.mem_cons.mp hz2 with hz3 | hz3
      · subst hz3; exact le_of_lt hlt
      · exact h.1 z hz3
    · refine List.pairwise_cons.mpr ⟨?_, List.pairwise_cons.mpr ⟨h.1, h.2⟩⟩
      intro z hz
      rcases List.mem_cons.mp hz with hz3 | hz3
      · subst hz3; exact le_of_not_lt hlt
      · exact le_trans (le_of_not_lt hlt) (h.1 z hz3)

theorem sortBullets_pairwise (l : List AnalyzedBullet) :
    (sortBullets l).Pairwise (fun a b => a.impact_score ≤ b.impact_score) := by
  induction l with
  | nil => simp [sortBullets]
  | cons x xs ih => exact insBullet_pairwise ih

theorem insBullet_filter_eq (x : AnalyzedBullet) (l : List AnalyzedBullet)
    (v : ℤ) (hx : x.impact_score = v) :
    (insBullet x l).filter (fun b => b.impact_score = v) =
      x :: l.filter (fun b => b.impact_score = v) := by
  induction l with
  | nil => simp [insBullet, List.filter, hx]
  | cons y ys ih =>
    unfold insBullet
    split_ifs with hlt
    · have hy : ¬ (y.impact_score = v) := by
        intro hcon
        omega
      simp [List.filter_cons, hy, ih]
    · simp [List.filter_cons, hx]

theorem insBullet_filter_ne (x : AnalyzedBullet) (l : List AnalyzedBullet)
    (v : ℤ) (hx : ¬ (x.impact_score = v)) :
    (insBullet x l).filter (fun b => b.impact_score = v) =
      l.filter (fun b => b.impact_score = v) := by
  induction l with
  | nil => simp [insBullet, List.filter, hx]
  | cons y ys ih =>
    unfold insBullet
    split_ifs with hlt
    · simp [List.filter_cons, ih]
    · simp [List.filter_cons, hx]

/-- Stability: for every score value, the sorted list lists the bullets
having that score in exactly their original order. -/
theorem sortBullets_stable (l : List AnalyzedBullet) (v : ℤ) :
    (sortBullets l).filter (fun b => b.impact_score = v) =
      l.filter (fun b => b.impact_score = v) := by
  induction l with
  | nil => rfl
  | cons x xs ih =>
    by_cases hx : x.impact_score = v
    · rw [sortBullets, insBullet_filter_eq x _ v hx, ih]
      simp [List.filter_cons, hx]
    · rw [sortBullets, insBullet_filter_ne x _ v hx, ih]
      simp [List.filter_cons, hx]

/-- C6: `get_weakest_bullets` returns the first `count` elements of a
stable ascending sort by impact score (a permutation of the input that is
sorted and, per score value, preserves the original order), and on the
documented example with scores [90,30,50,20] and count 2 it returns the
bullets scored 20 and 30 in that order. -/
theorem get_weakest_bullets_spec :
    (∀ (l : List AnalyzedBullet) (count : ℕ),
      get_weakest_bullets l count = (sortBullets l).take count)
    ∧ (∀ l : List AnalyzedBullet, (sortBullets l).Perm l)
    ∧ (∀ l : List AnalyzedBullet,
        (sortBullets l).Pairwise (fun a b => a.impact_score ≤ b.impact_score))
    ∧ (∀ (l : List AnalyzedBullet) (count : ℕ),
        (get_weakest_bullets l count).Pairwise
          (fun a b => a.impact_score ≤ b.impact_score))
    ∧ (∀ (l : List AnalyzedBullet) (v : ℤ),
        (sortBullets l).filter (fun b => b.impact_score = v) =
          l.filter (fun b => b.impact_score = v))
    ∧ get_weakest_bullets
        [⟨"Bullet 1", 90⟩, ⟨"Bullet 2", 30⟩, ⟨"Bullet 3", 50⟩, ⟨"Bullet 4", 20⟩] 2 =
        [⟨"Bullet 4", 20⟩, ⟨"Bullet 2", 30⟩] := by
  refine ⟨fun l count => rfl, sortBullets_perm, sortBullets_pairwise,
    fun l count => (sortBullets_pairwise l).sublist (List.take_sublist _ _),
    sortBullets_stable, by decide⟩

/-- Decidable "is a prefix of" on character lists. -/
def isPrefixB : List Char → List Char → Bool
  | [], _ => true
  | _ :: _, [] => false
  | a :: as, b :: bs => a = b && isPrefixB as bs

/-- Python's substring containment `needle in hay` on character lists
(the empty needle is contained in everything). -/
def isSubstrB (p : List Char) : List Char → Bool
  | [] => isPrefixB p []
  | c :: rest => isPrefixB p (c :: rest) || isSubstrB p rest

/-- `KeywordService.__init__`: the `technical_skills` reference set. -/
def technical_skills_set : List String :=
  ["python", "java", "javascript", "typescript", "c++", "c#", "ruby", "go", "rust",
   "php", "swift", "kotlin", "scala", "r", "matlab", "sql", "nosql", "html", "css",
   "react", "angular", "vue", "node", "django", "flask", "spring", "express",
   "tensorflow", "pytorch", "keras", "scikit-learn", "pandas", "numpy",
   "machine learning", "deep learning", "ai", "artificial intelligence",
   "data science", "nlp", "computer vision", "neural networks"]

/-- `KeywordService.__init__`: the `soft_skills` reference set. -/
def soft_skills_set : List String :=
  ["leadership", "communication", "teamwork", "collaboration", "problem-solving",
   "critical thinking", "analytical", "creative", "adaptable", "flexible",
   "time management", "organizational", "detail-oriented", "self-motivated",
   "initiative", "presentation", "interpersonal", "mentoring", "coaching"]

/-- `KeywordService.__init__`: the `tools` reference set. -/
def tools_set : List String :=
  ["git", "github", "gitlab", "bitbucket", "jira", "confluence", "slack",
   "docker", "kubernetes", "jenkins", "circleci", "travis", "terraform",
   "ansible", "puppet", "chef", "aws", "azure", "gcp", "heroku", "vercel",
   "linux", "unix", "windows", "macos", "bash", "powershell",
   "vscode", "intellij", "eclipse", "pycharm", "jupyter"]

/-- `KeywordService.__init__`: the `certifications` reference set; note the
stray empty-string entry between `'tableau certified'` and `'cfa'`. -/
def certifications_set : List String :=
  ["aws certified", "azure certified", "gcp certified", "pmp", "scrum master",
   "cissp", "comptia", "ceh", "cisa", "cism", "itil", "ccna", "ccnp",
   "certified kubernetes", "tableau certified", "", "cfa", "six sigma"]

/-- Does any entry of the reference set occur as a substring of the
lower-cased keyword (`any(entry in keyword_lower for entry in ref_set)`)? -/
def setMatches (refSet : List String) (kw : String) : Bool :=
  refSet.any (fun s => isSubstrB s.data (kw.data.map Char.toLower))

/-- The five output lists of `categorize_keywords`. -/
structure Categorized where
  technical_skills : List String
  soft_skills : List String
  tools : List String
  certifications : List String
  domain_terms : List String
deriving DecidableEq

/-- Whether a keyword matches none of the four reference sets (the
`categorized_flag` of the source stays false). -/
def noCategory (kw : String) : Bool :=
  !(setMatches technical_skills_set kw || setMatches soft_skills_set kw ||
    setMatches tools_set kw || setMatches certifications_set kw)

/-- The loop body of `categorize_keywords`: append the keyword to every
category whose reference set matches, and to `domain_terms` when none
matched. -/
def categorizeStep (acc : Categorized) (kw : String) : Categorized :=
  { technical_skills := acc.technical_skills ++
      if setMatches technical_skills_set kw then [kw] else []
    soft_skills := acc.soft_skills ++
      if setMatches soft_skills_set kw then [kw] else []
    tools := acc.tools ++
      if setMatches tools_set kw then [kw] else []
    certifications := acc.certifications ++
      if setMatches certifications_set kw then [kw] else []
    domain_terms := acc.domain_terms ++
      if noCategory kw then [kw] else [] }

/-- `KeywordService.categorize_keywords`. -/
def categorize_keywords (keywords : List String) : Categorized :=
  keywords.foldl categorizeStep ⟨[], [], [], [], []⟩

theorem categorize_foldl_fields (keywords : List String) (acc : Categorized) :
    (keywords.foldl categorizeStep acc).technical_skills =
      acc.technical_skills ++ keywords.filter (setMatches technical_skills_set)
    ∧ (keywords.foldl categorizeStep acc).soft_skills =
      acc.soft_skills ++ keywords.filter (setMatches soft_skills_set)
    ∧ (keywords.foldl categorizeStep acc).tools =
      acc.tools ++ keywords.filter (setMatches tools_set)
    ∧ (keywords.foldl categorizeStep acc).certifications =
      acc.certifications ++ keywords.filter (setMatches certifications_set)
    ∧ (keywords.foldl categorizeStep acc).domain_terms =
      acc.domain_terms ++ keywords.filter noCategory := by
  induction keywords generalizing acc with
  | nil => simp
  | cons kw kws ih =>
    obtain ⟨i1, i2, i3, i4, i5⟩ := ih (categorizeStep acc kw)
    refine ⟨?_, ?_, ?_, ?_, ?_⟩
    · rw [List.foldl_cons, i1, List.filter_cons]
      by_cases h : setMatches technical_skills_set kw <;>
        simp [categorizeStep, h]
    · rw [List.foldl_cons, i2, List.filter_cons]
      by_cases h : setMatches soft_skills_set kw <;>
        simp [categorizeStep, h]
    · rw [List.foldl_cons, i3, List.filter_cons]
      by_cases h : setMatches tools_set kw <;>
        simp [categorizeStep, h]
    · rw [List.foldl_cons, i4, List.filter_cons]
      by_cases h : setMatches certifications_set kw <;>
        simp [categorizeStep, h]
    · rw [List.foldl_cons, i5, List.filter_cons]
      by_cases h : noCategory kw <;>
        simp [categorizeStep, h]

theorem isSubstrB_nil (l : List Char) : isSubstrB [] l = true := by
  cases l <;> simp [isSubstrB, isPrefixB]

/-- The empty string in the certifications set matches every keyword. -/
theorem certifications_always_match (kw : String) :
    setMatches certifications_set kw = true := by
  apply List.any_eq_true.mpr
  exact ⟨"", by simp [certifications_set], isSubstrB_nil _⟩

/-- C9: because the certifications reference set contains the empty string,
every keyword is tagged into `certifications`, the no-category branch is
unreachable, and `domain_terms` is always empty. -/
theorem categorize_keywords_domain_terms_empty :
    ∀ keywords : List String,
      (categorize_keywords keywords).domain_terms = []
      ∧ (categorize_keywords keywords).certifications = keywords := by
  intro keywords
  obtain ⟨-, -, -, h4, h5⟩ := categorize_foldl_fields keywords ⟨[], [], [], [], []⟩
  constructor
  · rw [categorize_keywords, h5]
    simp only [List.nil_append]
    apply List.filter_eq_nil_iff.mpr
    intro kw _
    simp [noCategory, certifications_always_match kw]
  · rw [categorize_keywords, h4]
    simp only [List.nil_append]
    apply List.filter_eq_self.mpr
    intro kw _
    exact certifications_always_match kw

/-- C4 counterexample: contrary to the claim, the single-keyword list
["blockchain"] is NOT placed in `domain_terms`: "ai" (a technical-skill
entry) and the empty string (a certifications entry) occur as substrings
of "blockchain", so it is tagged into `technical_skills` and
`certifications` and `domain_terms` stays empty. -/
theorem categorize_keywords_blockchain_counterexample :
    (categorize_keywords ["blockchain"]).domain_terms = []
    ∧ (categorize_keywords ["blockchain"]).technical_skills = ["blockchain"]
    ∧ (categorize_keywords ["blockchain"]).certifications = ["blockchain"]
    ∧ (categorize_keywords ["blockchain"]).soft_skills = []
    ∧ (categorize_keywords ["blockchain"]).tools = [] := by
  refine ⟨?_, ?_, ?_, ?_, ?_⟩ <;> decide

/-- C4 (amended): `categorize_keywords` appends a keyword to each of the
four lexicon categories whose reference set contains an entry that is a
case-insensitive substring of the keyword (non-exclusive), and appends it
to `domain_terms` if and only if none of the four sets matched; since the
certifications set contains the empty string, no keyword ever reaches
`domain_terms`, and in particular ["blockchain"] lands in
`technical_skills` (via the entry "ai") and `certifications`, not in
`domain_terms`. -/
theorem categorize_keywords_spec :
    (∀ keywords : List String,
      (categorize_keywords keywords).technical_skills =
        keywords.filter (setMatches technical_skills_set)
      ∧ (categorize_keywords keywords).soft_skills =
        keywords.filter (setMatches soft_skills_set)
      ∧ (categorize_keywords keywords).tools =
        keywords.filter (setMatches tools_set)
      ∧ (categorize_keywords keywords).certifications =
        keywords.filter (setMatches certifications_set)
      ∧ (categorize_keywords keywords).domain_terms =
        keywords.filter noCategory)
    ∧ (∀ kw : String, noCategory kw = false)
    ∧ (categorize_keywords ["blockchain"]).technical_skills = ["blockchain"]
    ∧ (categorize_keywords ["blockchain"]).certifications = ["blockchain"]
    ∧ (categorize_keywords ["blockchain"]).domain_terms = [] := by
  refine ⟨?_, ?_, by decide, by decide, by decide⟩
  · intro keywords
    have h := categorize_foldl_fields keywords ⟨[], [], [], [], []⟩
    simpa [categorize_keywords] using h
  · intro kw
    simp [noCategory, certifications_always_match kw]

/-- A bullet rewrite as consumed by the projection service: the original
text and the keywords newly added by the rewrite. -/
structure Rewrite where
  original : String
  keywords_added : List String
deriving DecidableEq

/-- An original analyzed bullet as consumed by the projection service
(the `text` and `impact_score` entries). -/
structure OriginalBullet where
  text : String
  impact_score : ℚ
deriving DecidableEq

/-- Python `str.lower`. -/
def lowerString (s : String) : String := ⟨s.data.map Char.toLower⟩

/-- `ProjectionService._calculate_new_impact_score`: substitute an assumed
score of 95 for every bullet whose text matches a rewrite's `original`,
keep the original score otherwise, and average (rounded to 2 decimals);
0.0 for an empty bullet list. -/
def new_impact_score (original_bullets : List OriginalBullet)
    (rewrites : List Rewrite) : ℚ :=
  if original_bullets = [] then 0
  else
    round2 (((original_bullets.map (fun b =>
      if rewrites.any (fun r => r.original = b.text) then (95:ℚ)
      else b.impact_score)).sum) / original_bullets.length)

/-- `ProjectionService._calculate_new_keyword_coverage`: reconstruct the
implied current match count, add the count of distinct lower-cased added
keywords, cap at the total, and recompute the percentage (rounded to 2
decimals); the current coverage when there are no keywords. -/
def new_keyword_coverage (current_coverage : ℚ) (rewrites : List Rewrite)
    (missing_keywords : List String) (total_keywords : ℕ) : ℚ :=
  if total_keywords = 0 then current_coverage
  else
    let added := ((rewrites.flatMap (fun r => r.keywords_added)).map lowerString).dedup
    let additional : ℚ := added.length
    let current_matches := current_coverage / 100 * total_keywords
    let new_matches := min (current_matches + additional) (total_keywords : ℚ)
    round2 (new_matches / total_keywords * 100)

/-- The fields of the dictionary returned by `project_improved_score`
(`breakdown` flattened into its two component deltas). -/
structure ProjectionResult where
  current_score : ℤ
  projected_score : ℤ
  improvement : ℤ
  percentage_gain : ℚ
  impact_strength_delta : ℚ
  keyword_coverage_delta : ℚ
deriving DecidableEq

/-- `ProjectionService.project_improved_score`: compute the projected
impact and keyword components, feed them together with the unchanged four
components through `ScoringService.calculate_final_score`, and report the
improvement and percentage gain. -/
def project_improved_score (current_score : ℤ) (current_breakdown : Components)
    (rewrites : List Rewrite) (original_bullets : List OriginalBullet)
    (missing_keywords : List String) (total_keywords : ℕ) : ProjectionResult :=
  let new_impact := new_impact_score original_bullets rewrites
  let new_keyword := new_keyword_coverage
    (getComponent current_breakdown.keyword_match) rewrites missing_keywords total_keywords
  let projected_components : Components :=
    { keyword_match := some new_keyword
      semantic_match := some (getComponent current_breakdown.semantic_match)
      impact_strength := some new_impact
      skills_alignment := some (getComponent current_breakdown.skills_alignment)
      experience_alignment := some (getComponent current_breakdown.experience_alignment)
      format_compliance := some (getComponent current_breakdown.format_compliance) }
  let projected_score := calculate_final_score projected_components
  let improvement := projected_score - current_score
  let percentage_gain : ℚ :=
    if 0 < current_score then (improvement : ℚ) / (current_score : ℚ) * 100 else 0
  { current_score := current_score
    projected_score := projected_score
    improvement := improvement
    percentage_gain := round2 percentage_gain
    impact_strength_delta := new_impact - getComponent current_breakdown.impact_strength
    keyword_coverage_delta := new_keyword - getComponent current_breakdown.keyword_match }

/-- C5 counterexample: with current score 3 and a breakdown whose only
nonzero component is semantic_match = 16, the projection yields projected
score 4 and improvement 1, but the returned `percentage_gain` is
`round(100/3, 2) = 33.33`, not `improvement/current_score × 100 = 100/3`
as claimed. -/
theorem percentage_gain_rounded_counterexample :
    (project_improved_score 3 ⟨some 0, some 16, some 0, some 0, some 0, some 0⟩
      [] [] [] 0).improvement = 1
    ∧ (project_improved_score 3 ⟨some 0, some 16, some 0, some 0, some 0, some 0⟩
      [] [] [] 0).percentage_gain = 3333/100
    ∧ ((3333:ℚ)/100) ≠ ((1:ℚ) / 3) * 100 := by
  refine ⟨?_, ?_, by norm_num⟩ <;>
    norm_num [project_improved_score, new_impact_score, new_keyword_coverage,
      calculate_final_score, weightedSum, clampScore, getComponent, pyRound, round2]

/-- C5 (amended): `project_improved_score` feeds the updated
impact_strength and keyword_match components, together with the unchanged
other four components, through the same `calculate_final_score`
aggregation (same weights and rounding); the returned improvement equals
projected_score minus current_score, and percentage_gain equals
improvement/current_score × 100 rounded to two decimals, and 0 when
current_score is 0. -/
theorem project_improved_score_spec (current_score : ℤ) (bd : Components)
    (rewrites : List Rewrite) (bullets : List OriginalBullet)
    (missing : List String) (total : ℕ) :
    (project_improved_score current_score bd rewrites bullets missing total).projected_score
      = calculate_final_score
        { keyword_match := some (new_keyword_coverage (getComponent bd.keyword_match)
            rewrites missing total)
          semantic_match := some (getComponent bd.semantic_match)
          impact_strength := some (new_impact_score bullets rewrites)
          skills_alignment := some (getComponent bd.skills_alignment)
          experience_alignment := some (getComponent bd.experience_alignment)
          format_compliance := some (getComponent bd.format_compliance) }
    ∧ (project_improved_score current_score bd rewrites bullets missing total).improvement
      = (project_improved_score current_score bd rewrites bullets missing total).projected_score
        - current_score
    ∧ (0 < current_score →
        (project_improved_score current_score bd rewrites bullets missing total).percentage_gain
        = round2 (((project_improved_score current_score bd rewrites bullets missing
            total).improvement : ℚ) / (current_score : ℚ) * 100))
    ∧ (current_score = 0 →
        (project_improved_score current_score bd rewrites bullets missing total).percentage_gain
        = 0) := by
  refine ⟨rfl, rfl, ?_, ?_⟩
  · intro h
    simp [project_improved_score, if_pos h]
  · intro h
    subst h
    simp [project_improved_score, round2, pyRound]

/-- Witness for `project_improved_score_spec` at a concrete zero-score
input. -/
theorem project_improved_score_spec_witness :
    (0:ℤ) = 0 ∧
    (project_improved_score 0 ⟨none, none, none, none, none, none⟩ [] [] [] 0).percentage_gain
      = 0 :=
  ⟨rfl, (project_improved_score_spec 0 ⟨none, none, none, none, none, none⟩ [] [] [] 0).2.2.2 rfl⟩

/-- `np.dot(v1, v2)` on rational vectors. -/
def dotProduct (v1 v2 : List ℚ) : ℚ := (List.zipWith (· * ·) v1 v2).sum

/-- The squared Euclidean norm; `np.linalg.norm(v)` is its square root,
and `norm(v) == 0` holds exactly when `normSq v = 0`. -/
def normSq (v : List ℚ) : ℚ := dotProduct v v

theorem normSq_nonneg (v : List ℚ) : 0 ≤ normSq v := by
  induction v with
  | nil => simp [normSq, dotProduct]
  | cons a v ih =>
    have h : normSq (a :: v) = a * a + normSq v := by
      simp [normSq, dotProduct]
    rw [h]
    nlinarith [mul_self_nonneg a]

/-- `EmbeddingService.cosine_similarity`: 0.0 when either norm is zero,
`dot/(‖v1‖·‖v2‖)` otherwise (the zero test is carried out on the
squared norms, which is equivalent for exact reals). -/
noncomputable def cosine_similarity (v1 v2 : List ℚ) : ℝ :=
  if normSq v1 = 0 ∨ normSq v2 = 0 then 0
  else ((dotProduct v1 v2 : ℚ) : ℝ) /
    (Real.sqrt ((normSq v1 : ℚ) : ℝ) * Real.sqrt ((normSq v2 : ℚ) : ℝ))

/-- `EmbeddingService.compute_semantic_similarity`: the outcome of the
embedding collaborator (both `get_embedding` calls after their retry
policy, followed by the cosine computation) is modelled by an `Except`
value carrying the cosine similarity; on success the similarity is
rescaled by `((similarity + 1) / 2) * 100` and rounded to two decimals,
on failure the neutral 50.0 is returned. -/
def compute_semantic_similarity (similarity : Except Unit ℚ) : ℚ :=
  match similarity with
  | Except.ok s => round2 (((s + 1) / 2) * 100)
  | Except.error _ => 50

theorem round2_nonneg {q : ℚ} (h : 0 ≤ q) : 0 ≤ round2 q := by
  unfold round2
  have h1 : (0:ℤ) ≤ pyRound (q * 100) := pyRound_nonneg (by linarith)
  have h2 : (0:ℚ) ≤ (pyRound (q * 100) : ℚ) := by exact_mod_cast h1
  positivity

theorem round2_le_100 {q : ℚ} (h : q ≤ 100) : round2 q ≤ 100 := by
  unfold round2
  have h1 : pyRound (q * 100) ≤ (10000 : ℤ) := pyRound_le (by push_cast; linarith)
  have h2 : (pyRound (q * 100) : ℚ) ≤ 10000 := by exact_mod_cast h1
  linarith

/-- C7: `compute_semantic_similarity` rescales a cosine similarity `s` by
`((s + 1) / 2) × 100` rounded to 2 decimals — which maps `[-1,1]` into
`[0,100]` — and substitutes the neutral 50.0 when the embedding
collaborator fails, so the component never propagates the failure. -/
theorem compute_semantic_similarity_spec (s : ℚ) (h1 : -1 ≤ s) (h2 : s ≤ 1) :
    compute_semantic_similarity (Except.error ()) = 50
    ∧ compute_semantic_similarity (Except.ok s) = round2 (((s + 1) / 2) * 100)
    ∧ 0 ≤ compute_semantic_similarity (Except.ok s)
    ∧ compute_semantic_similarity (Except.ok s) ≤ 100 := by
  refine ⟨rfl, rfl, ?_, ?_⟩
  · exact round2_nonneg (by linarith)
  · exact round2_le_100 (by linarith)

/-- Witness for `compute_semantic_similarity_spec` at similarity 0. -/
theorem compute_semantic_similarity_spec_witness :
    (-1 ≤ (0:ℚ)) ∧ (0:ℚ) ≤ 1
    ∧ 0 ≤ compute_semantic_similarity (Except.ok 0)
    ∧ compute_semantic_similarity (Except.ok 0) ≤ 100 :=
  ⟨by norm_num, by norm_num,
    (compute_semantic_similarity_spec 0 (by norm_num) (by norm_num)).2.2.1,
    (compute_semantic_similarity_spec 0 (by norm_num) (by norm_num)).2.2.2⟩

/-- C10: `cosine_similarity` is total: the zero-norm guard (equivalent to
testing `np.linalg.norm(v) == 0`, as the first conjunct shows) returns
0.0 instead of dividing by zero, otherwise the function returns
`dot/(‖v1‖·‖v2‖)`; and a zero cosine yields a semantic score of exactly
50.0 after rescaling. -/
theorem cosine_similarity_total (v1 v2 : List ℚ) :
    (Real.sqrt ((normSq v1 : ℚ) : ℝ) = 0 ↔ normSq v1 = 0)
    ∧ (normSq v1 = 0 ∨ normSq v2 = 0 → cosine_similarity v1 v2 = 0)
    ∧ (normSq v1 ≠ 0 → normSq v2 ≠ 0 →
        cosine_similarity v1 v2 = ((dotProduct v1 v2 : ℚ) : ℝ) /
          (Real.sqrt ((normSq v1 : ℚ) : ℝ) * Real.sqrt ((normSq v2 : ℚ) : ℝ)))
    ∧ compute_semantic_similarity (Except.ok 0) = 50 := by
  refine ⟨?_, ?_, ?_, ?_⟩
  · constructor
    · intro h
      have hle : ((normSq v1 : ℚ) : ℝ) ≤ 0 := Real.sqrt_eq_zero'.mp h
      have hge : (0:ℚ) ≤ normSq v1 := normSq_nonneg v1
      have : (normSq v1 : ℚ) ≤ 0 := by exact_mod_cast hle
      linarith
    · intro h
      rw [h]
      simp [Real.sqrt_zero]
  · intro h
    simp [cosine_similarity, h]
  · intro hn1 hn2
    simp [cosine_similarity, hn1, hn2]
  · norm_num [compute_semantic_similarity, round2, pyRound]

/-- Witness for `cosine_similarity_total` on the degenerate zero vector. -/
theorem cosine_similarity_total_witness :
    (normSq [(0:ℚ)] = 0 ∨ normSq [(1:ℚ)] = 0)
    ∧ cosine_similarity [(0:ℚ)] [(1:ℚ)] = 0 :=
  ⟨Or.inl (by simp [normSq, dotProduct]),
   (cosine_similarity_total [(0:ℚ)] [(1:ℚ)]).2.1 (Or.inl (by simp [normSq, dotProduct]))⟩

/-- The character replacement table of `normalize_unicode` (`text_utils.py`):
en/em dash to '-', curly quotes to straight quotes, `•` to the bullet
(itself), no-break space to ' '; every replacement is one character to one
character, so the sequential `str.replace` calls amount to a map. -/
def normChar (c : Char) : Char :=
  if c = Char.ofNat 0x2013 then '-'
  else if c = Char.ofNat 0x2014 then '-'
  else if c = Char.ofNat 0x2018 then Char.ofNat 39
  else if c = Char.ofNat 0x2019 then Char.ofNat 39
  else if c = Char.ofNat 0x201c then Char.ofNat 34
  else if c = Char.ofNat 0x201d then Char.ofNat 34
  else if c = Char.ofNat 0x2022 then Char.ofNat 0x2022
  else if c = Char.ofNat 0xa0 then ' '
  else c

/-- `normalize_unicode` from `text_utils.py`. -/
def normalize_unicode (l : List Char) : List Char := l.map normChar

/-- `re.sub(r'\s+', ' ', text)`: replace every maximal whitespace run by a
single space; `prevSpace` records whether the previous character belonged
to a run that has already emitted its space. -/
def collapseWsAux (prevSpace : Bool) : List Char → List Char
  | [] => []
  | c :: rest =>
    if isSpaceChar c then
      if prevSpace then collapseWsAux true rest
      else ' ' :: collapseWsAux true rest
    else c :: collapseWsAux false rest

/-- Python `str.strip()`: drop leading and trailing whitespace. -/
def stripChars (l : List Char) : List Char :=
  ((l.dropWhile isSpaceChar).reverse.dropWhile isSpaceChar).reverse

/-- `clean_whitespace` from `text_utils.py`:
`re.sub(r'\s+', ' ', text).strip()`. -/
def clean_whitespace (l : List Char) : List Char :=
  stripChars (collapseWsAux false l)

/-- `re.sub(r'\n{3,}', '\n\n', text)`: runs of three or more newlines are
replaced by exactly two. -/
def reduceNewlines : List Char → List Char
  | [] => []
  | c :: rest =>
    if c = '\n' then
      (if 3 ≤ (rest.takeWhile (fun d => d = '\n')).length + 1
       then ['\n', '\n']
       else List.replicate ((rest.takeWhile (fun d => d = '\n')).length + 1) '\n') ++
      reduceNewlines (rest.dropWhile (fun d => d = '\n'))
    else c :: reduceNewlines rest
termination_by l => l.length
decreasing_by
  · have h : (rest.dropWhile (fun d => decide (d = '\n'))).length ≤ rest.length :=
      (List.dropWhile_sublist _).length_le
    simp only [List.length_cons]
    omega
  · simp only [List.length_cons]
    omega

/-- `PreprocessService.clean_text`: Unicode normalization, whitespace
normalization, then newline reduction. -/
def clean_text (l : List Char) : List Char :=
  reduceNewlines (clean_whitespace (normalize_unicode l))

/-- No two adjacent characters are both whitespace. -/
def NoTwoSpaces (l : List Char) : Prop :=
  l.Chain' (fun a b => isSpaceChar a = false ∨ isSpaceChar b = false)

theorem normChar_idem (c : Char) : normChar (normChar c) = normChar c := by
  rcases eq_or_ne c (Char.ofNat 0x2013) with h1 | h1
  · subst h1; decide
  rcases eq_or_ne c (Char.ofNat 0x2014) with h2 | h2
  · subst h2; decide
  rcases eq_or_ne c (Char.ofNat 0x2018) with h3 | h3
  · subst h3; decide
  rcases eq_or_ne c (Char.ofNat 0x2019) with h4 | h4
  · subst h4; decide
  rcases eq_or_ne c (Char.ofNat 0x201c) with h5 | h5
  · subst h5; decide
  rcases eq_or_ne c (Char.ofNat 0x201d) with h6 | h6
  · subst h6; decide
  rcases eq_or_ne c (Char.ofNat 0x2022) with h7 | h7
  · subst h7; decide
  rcases eq_or_ne c (Char.ofNat 0xa0) with h8 | h8
  · subst h8; decide
  have hc : normChar c = c := by
    unfold normChar
    rw [if_neg h1, if_neg h2, if_neg h3, if_neg h4, if_neg h5, if_neg h6,
      if_neg h7, if_neg h8]
  rw [hc]
  exact hc

theorem mem_normalize_unicode_fixed {x : Char} {l : List Char}
    (h : x ∈ normalize_unicode l) : normChar x = x := by
  obtain ⟨y, -, hy⟩ := List.mem_map.mp h
  rw [← hy]
  exact normChar_idem y

theorem mem_collapseWsAux {x : Char} :
    ∀ (l : List Char) (b : Bool), x ∈ collapseWsAux b l →
      x = ' ' ∨ (x ∈ l ∧ isSpaceChar x = false) := by
  intro l
  induction l with
  | nil => intro b h; simp [collapseWsAux] at h
  | cons c rest ih =>
    intro b h
    by_cases hsp : isSpaceChar c
    · rw [collapseWsAux, if_pos hsp] at h
      cases b with
      | true =>
        rcases ih true (by simpa using h) with h1 | ⟨h2, h3⟩
        · exact Or.inl h1
        · exact Or.inr ⟨List.mem_cons_of_mem c h2, h3⟩
      | false =>
        simp only [Bool.false_eq_true, if_false] at h
        rcases List.mem_cons.mp h with h1 | h1
        · exact Or.inl h1
        · rcases ih true h1 with h2 | ⟨h3, h4⟩
          · exact Or.inl h2
          · exact Or.inr ⟨List.mem_cons_of_mem c h3, h4⟩
    · rw [collapseWsAux, if_neg hsp] at h
      rcases List.mem_cons.mp h with h1 | h1
      · subst h1
        exact Or.inr ⟨List.mem_cons_self _ _, by simpa using hsp⟩
      · rcases ih false h1 with h2 | ⟨h3, h4⟩
        · exact Or.inl h2
        · exact Or.inr ⟨List.mem_cons_of_mem c h3, h4⟩

theorem collapseWsAux_true_head {l : List Char} {c : Char}
    (h : (collapseWsAux true l).head? = some c) : isSpaceChar c = false := by
  induction l with
  | nil => simp [collapseWsAux] at h
  | cons d rest ih =>
    by_cases hsp : isSpaceChar d
    · rw [collapseWsAux, if_pos hsp] at h
      exact ih (by simpa using h)
    · rw [collapseWsAux, if_neg hsp] at h
      simp only [List.head?_cons, Option.some.injEq] at h
      subst h
      simpa using hsp

theorem collapseWsAux_chain' : ∀ (l : List Char) (b : Bool),
    NoTwoSpaces (collapseWsAux b l) := by
  intro l
  induction l with
  | nil => intro b; simp [collapseWsAux, NoTwoSpaces]
  | cons c rest ih =>
    intro b
    by_cases hsp : isSpaceChar c
    · rw [collapseWsAux, if_pos hsp]
      cases b with
      | true => simpa using ih true
      | false =>
        simp only [Bool.false_eq_true, if_false]
        refine List.chain'_cons'.mpr ⟨?_, ih true⟩
        intro y hy
        exact Or.inr (collapseWsAux_true_head hy)
    · rw [collapseWsAux, if_neg hsp]
      refine List.chain'_cons'.mpr ⟨?_, ih false⟩
      intro y hy
      exact Or.inl (by simpa using hsp)

theorem chain'_dropWhile {R : Char → Char → Prop} {p : Char → Bool}
    {l : List Char} (h : l.Chain' R) : (l.dropWhile p).Chain' R := by
  induction l with
  | nil => simp
  | cons c rest ih =>
    rw [List.dropWhile_cons]
    split_ifs with hc
    · exact ih h.tail
    · exact h

theorem chain'_reverse_of {R : Char → Char → Prop}
    (hsymm : ∀ a b, R a b → R b a) {l : List Char} (h : l.Chain' R) :
    l.reverse.Chain' R := by
  rw [List.chain'_reverse]
  exact h.imp (fun a b hab => hsymm a b hab)

theorem head?_dropWhile {p : Char → Bool} :
    ∀ {l : List Char} {c : Char}, (l.dropWhile p).head? = some c → p c = false := by
  intro l
  induction l with
  | nil => intro c h; simp at h
  | cons d rest ih =>
    intro c h
    rw [List.dropWhile_cons] at h
    split_ifs at h with hd
    · exact ih h
    · simp only [List.head?_cons, Option.some.injEq] at h
      subst h
      simpa using hd

theorem stripChars_subset {x : Char} {l : List Char}
    (h : x ∈ stripChars l) : x ∈ l := by
  unfold stripChars at h
  rw [List.mem_reverse] at h
  have h2 := (List.dropWhile_subset isSpaceChar) h
  rw [List.mem_reverse] at h2
  exact (List.dropWhile_subset isSpaceChar) h2

theorem stripChars_chain' {l : List Char} (h : NoTwoSpaces l) :
    NoTwoSpaces (stripChars l) := by
  unfold stripChars
  refine chain'_reverse_of (fun a b hab => hab.symm) ?_
  exact chain'_dropWhile (chain'_reverse_of (fun a b hab => hab.symm) (chain'_dropWhile h))

theorem stripChars_last {l : List Char} {c : Char}
    (h : (stripChars l).getLast? = some c) : isSpaceChar c = false := by
  unfold stripChars at h
  rw [List.getLast?_reverse] at h
  exact head?_dropWhile h

theorem getLast?_of_suffix {l₁ l₂ : List Char} (h : l₁ <:+ l₂) (hne : l₁ ≠ []) :
    l₁.getLast? = l₂.getLast? := by
  obtain ⟨t, ht⟩ := h
  rw [← ht, List.getLast?_append_of_ne_nil t hne]

theorem stripChars_head {l : List Char} {c : Char}
    (h : (stripChars l).head? = some c) : isSpaceChar c = false := by
  unfold stripChars at h
  rw [List.head?_reverse] at h
  have hne : (l.dropWhile isSpaceChar).reverse.dropWhile isSpaceChar ≠ [] := by
    intro hcon
    rw [hcon] at h
    simp at h
  rw [getLast?_of_suffix (List.dropWhile_suffix isSpaceChar) hne] at h
  rw [List.getLast?_reverse] at h
  exact head?_dropWhile h

theorem collapseWsAux_true_eq_false {l : List Char}
    (h : ∀ d, l.head? = some d → isSpaceChar d = false) :
    collapseWsAux true l = collapseWsAux false l := by
  cases l with
  | nil => rfl
  | cons d rest =>
    have hd : isSpaceChar d = false := h d rfl
    rw [collapseWsAux, collapseWsAux, if_neg (by simp [hd]), if_neg (by simp [hd])]

theorem collapseWsAux_id : ∀ l : List Char,
    (∀ x ∈ l, isSpaceChar x = true → x = ' ') → NoTwoSpaces l →
    collapseWsAux false l = l := by
  intro l
  induction l with
  | nil => intro _ _; rfl
  | cons c rest ih =>
    intro hP hchain
    obtain ⟨hR, htail⟩ := List.chain'_cons'.mp hchain
    by_cases hsp : isSpaceChar c
    · have hc : c = ' ' := hP c (List.mem_cons_self _ _) hsp
      have hhead : ∀ d, rest.head? = some d → isSpaceChar d = false := by
        intro d hd
        rcases hR d (Option.mem_def.mpr hd) with h1 | h1
        · rw [hsp] at h1; exact absurd h1 (by simp)
        · exact h1
      rw [collapseWsAux, if_pos hsp]
      simp only [Bool.false_eq_true, if_false]
      rw [collapseWsAux_true_eq_false hhead,
        ih (fun x hx => hP x (List.mem_cons_of_mem c hx)) htail, hc]
    · rw [collapseWsAux, if_neg hsp,
        ih (fun x hx => hP x (List.mem_cons_of_mem c hx)) htail]

theorem dropWhile_eq_self_of_head {p : Char → Bool} {l : List Char}
    (h : ∀ c, l.head? = some c → p c = false) : l.dropWhile p = l := by
  cases l with
  | nil => rfl
  | cons c rest =>
    rw [List.dropWhile_cons, if_neg (by simp [h c rfl])]

theorem stripChars_id {l : List Char}
    (h1 : ∀ c, l.head? = some c → isSpaceChar c = false)
    (h2 : ∀ c, l.getLast? = some c → isSpaceChar c = false) :
    stripChars l = l := by
  unfold stripChars
  rw [dropWhile_eq_self_of_head h1,
    dropWhile_eq_self_of_head (fun c hc => h2 c (by rwa [List.head?_reverse] at hc)),
    List.reverse_reverse]

theorem clean_whitespace_props (l : List Char) :
    (∀ x ∈ clean_whitespace l, isSpaceChar x = true → x = ' ')
    ∧ NoTwoSpaces (clean_whitespace l)
    ∧ (∀ c, (clean_whitespace l).head? = some c → isSpaceChar c = false)
    ∧ (∀ c, (clean_whitespace l).getLast? = some c → isSpaceChar c = false) := by
  refine ⟨?_, ?_, ?_, ?_⟩
  · intro x hx hsp
    rcases mem_collapseWsAux _ false (stripChars_subset hx) with he | ⟨-, hns⟩
    · exact he
    · rw [hsp] at hns; exact absurd hns (by simp)
  · exact stripChars_chain' (collapseWsAux_chain' l false)
  · intro c hc; exact stripChars_head hc
  · intro c hc; exact stripChars_last hc

theorem clean_whitespace_id {l : List Char}
    (hP : ∀ x ∈ l, isSpaceChar x = true → x = ' ')
    (hchain : NoTwoSpaces l)
    (hhead : ∀ c, l.head? = some c → isSpaceChar c = false)
    (hlast : ∀ c, l.getLast? = some c → isSpaceChar c = false) :
    clean_whitespace l = l := by
  unfold clean_whitespace
  rw [collapseWsAux_id l hP hchain]
  exact stripChars_id hhead hlast

theorem nl_not_mem_clean_whitespace (l : List Char) :
    '\n' ∉ clean_whitespace l := by
  intro h
  rcases mem_collapseWsAux _ false (stripChars_subset h) with he | ⟨-, hns⟩
  · exact absurd he (by decide)
  · have hnl : isSpaceChar '\n' = true := by decide
    rw [hnl] at hns
    exact absurd hns (by simp)

theorem reduceNewlines_id : ∀ l : List Char, '\n' ∉ l → reduceNewlines l = l := by
  intro l
  induction l with
  | nil => intro _; rw [reduceNewlines]
  | cons c rest ih =>
    intro h
    have hc : ¬(c = '\n') := by
      intro hcon
      exact h (hcon ▸ List.mem_cons_self _ _)
    rw [reduceNewlines, if_neg hc, ih (fun hm => h (List.mem_cons_of_mem c hm))]

theorem clean_text_eq (l : List Char) :
    clean_text l = clean_whitespace (normalize_unicode l) := by
  unfold clean_text
  exact reduceNewlines_id _ (nl_not_mem_clean_whitespace _)

theorem mem_clean_whitespace_norm_fixed {x : Char} {l : List Char}
    (hx : x ∈ clean_whitespace (normalize_unicode l)) : normChar x = x := by
  rcases mem_collapseWsAux _ false (stripChars_subset hx) with he | ⟨hmem, -⟩
  · rw [he]; decide
  · exact mem_normalize_unicode_fixed hmem

/-- C8: text normalization is idempotent: applying `clean_text` (Unicode
replacement, whitespace collapsing with strip, newline reduction) to
already-normalized text produces no further changes. -/
theorem clean_text_idempotent :
    ∀ l : List Char, clean_text (clean_text l) = clean_text l := by
  intro l
  have e : clean_text l = clean_whitespace (normalize_unicode l) := clean_text_eq l
  obtain ⟨p1, p2, p3, p4⟩ := clean_whitespace_props (normalize_unicode l)
  have hnorm : normalize_unicode (clean_whitespace (normalize_unicode l)) =
      clean_whitespace (normalize_unicode l) := by
    refine (List.map_congr_left ?_).trans (List.map_id _)
    intro x hx
    exact mem_clean_whitespace_norm_fixed hx
  have hid : clean_whitespace (clean_whitespace (normalize_unicode l)) =
      clean_whitespace (normalize_unicode l) :=
    clean_whitespace_id p1 p2 p3 p4
  calc clean_text (clean_text l)
      = clean_text (clean_whitespace (normalize_unicode l)) := by rw [e]
    _ = reduceNewlines (clean_whitespace
          (normalize_unicode (clean_whitespace (normalize_unicode l)))) := rfl
    _ = reduceNewlines (clean_whitespace (clean_whitespace (normalize_unicode l))) := by
          rw [hnorm]
    _ = reduceNewlines (clean_whitespace (normalize_unicode l)) := by rw [hid]
    _ = clean_whitespace (normalize_unicode l) :=
          reduceNewlines_id _ (nl_not_mem_clean_whitespace _)
    _ = clean_text l := e.symm
